import Mathlib

/-!
Verification of the oEmbed endpoint-resolution subsystem of the urlmeta
repository (scheme matcher, compiled-regex cache, provider registry,
orchestration).  Go strings are modelled as lists of characters; the
regular expressions emitted by schemeToRegex fall into a small fragment
(anchored sequences of literals, of the class shorthand for "any
character but a slash, repeated", and of dot-star), which is embedded as
a token list with an executable matcher.  A parallel byte-level model
captures the one way regexp compilation can fail on these patterns:
invalid UTF-8 in the scheme string.
-/

namespace Urlmeta

/-- Go strings viewed as character sequences. -/
abbrev Str := List Char

/-- Character list of a Lean string literal. -/
def str (s : String) : Str := s.data

/-- Boolean test that the first list is a leading segment of the second. -/
def isPrefixL [DecidableEq α] : List α → List α → Bool
  | [], _ => true
  | _ :: _, [] => false
  | a :: p, b :: s => if a = b then isPrefixL p s else false

/-- Go strings.Contains: the needle occurs contiguously inside the haystack. -/
def isInfixL [DecidableEq α] (p : List α) : List α → Bool
  | [] => isPrefixL p []
  | b :: s => isPrefixL p (b :: s) || isInfixL p s

/-- Split off everything before the first occurrence of the separator
element; none when the separator does not occur. -/
def breakElem [DecidableEq α] (sep : α) : List α → Option (List α × List α)
  | [] => none
  | c :: cs =>
    if c = sep then some ([], cs)
    else
      match breakElem sep cs with
      | none => none
      | some (l, r) => some (c :: l, r)

/-- Go strings.SplitN with a single-element separator and n > 0: at most
n parts, the last part keeping any remaining separators. -/
def splitNElem [DecidableEq α] (sep : α) : Nat → List α → List (List α)
  | 0, _ => []
  | 1, s => [s]
  | n + 2, s =>
    match breakElem sep s with
    | none => [s]
    | some (l, r) => l :: splitNElem sep (n + 1) r

/-- Go strings.Split (no part limit): a list of n elements has at most
n + 1 parts, so running SplitN with that bound is exact. -/
def splitAllElem [DecidableEq α] (sep : α) (s : List α) : List (List α) :=
  splitNElem sep (s.length + 1) s

/-- Go strings.Join with a single-element separator. -/
def joinSep (sep : α) : List (List α) → List α
  | [] => []
  | [x] => x
  | x :: y :: xs => x ++ sep :: joinSep sep (y :: xs)

/-- Fuel-indexed body of replaceAllSub; every step consumes at least one
list element, so fuel equal to the length is exact (the zero-fuel arm is
never reached from replaceAllSub). -/
def replaceAllF [DecidableEq α] (old new : List α) : Nat → List α → List α
  | _, [] => []
  | 0, s => s
  | fuel + 1, c :: cs =>
    if old ≠ [] ∧ isPrefixL old (c :: cs) = true then
      new ++ replaceAllF old new fuel ((c :: cs).drop old.length)
    else
      c :: replaceAllF old new fuel cs

/-- Go strings.Replace(s, old, new, -1) for the nonempty needles used in
this package (for an empty needle Go instead interleaves the
replacement; that case is never exercised here and is left as the
identity). -/
def replaceAllSub [DecidableEq α] (old new : List α) (s : List α) : List α :=
  replaceAllF old new s.length s

/-- Go strings.Replace(s, old, new, 1) for nonempty needles: only the
first occurrence is replaced. -/
def replaceOnceSub [DecidableEq α] (old new : List α) : List α → List α
  | [] => []
  | c :: cs =>
    if old ≠ [] ∧ isPrefixL old (c :: cs) = true then
      new ++ (c :: cs).drop old.length
    else
      c :: replaceOnceSub old new cs

/-- The characters Go regexp.QuoteMeta escapes. -/
def isSpecialChar (c : Char) : Bool :=
  c = '\\' || c = '.' || c = '+' || c = '*' || c = '?' || c = '(' || c = ')' ||
  c = '|' || c = '[' || c = ']' || c = '\x7b' || c = '\x7d' || c = '^' || c = '$'

/-- Go regexp.QuoteMeta: prefix every special character with a backslash. -/
def quoteMeta : Str → Str
  | [] => []
  | c :: cs => if isSpecialChar c then '\\' :: c :: quoteMeta cs else c :: quoteMeta cs

/-- schemeToRegex from the source: quote the scheme, split it at the
slashes into at most four parts, rewrite the escaped wildcard to the
slash-free class form in the host part and to dot-star in the path part,
rejoin, and anchor the result at both ends. -/
def schemeToRegex (scheme : Str) : Str :=
  let pattern := quoteMeta scheme
  let parts := splitNElem '/' 4 pattern
  let pattern2 :=
    if 3 ≤ parts.length then
      let parts2 := parts.set 2 (replaceAllSub (str "\\*") (str "[^/]*") (parts.getD 2 []))
      let parts3 :=
        if 4 ≤ parts2.length then
          parts2.set 3 (replaceAllSub (str "\\*") (str ".*") (parts2.getD 3 []))
        else parts2
      joinSep '/' parts3
    else replaceAllSub (str "\\*") (str ".*") pattern
  str "^" ++ pattern2 ++ str "$"

/-- Tokens of the regex fragment produced by schemeToRegex. -/
inductive RTok where
  /-- A literal character. -/
  | lit (c : Char)
  /-- The class shorthand emitted for a host-segment wildcard: zero or
  more characters other than a slash. -/
  | hostStar
  /-- Dot-star emitted for a path-segment wildcard: zero or more
  characters other than a newline (Go dot without the s flag). -/
  | pathStar
deriving DecidableEq, Repr

/-- Fuel-indexed body parser; every step consumes at least one
character, so fuel one above the length is exact (the zero-fuel arm is
never reached from parseBody). -/
def parseBodyF : Nat → Str → Option (List RTok)
  | _, [] => some []
  | 0, _ :: _ => none
  | fuel + 1, c :: rest =>
    if c = '[' then
      match rest with
      | c1 :: c2 :: c3 :: c4 :: rest2 =>
        if c1 = '^' ∧ c2 = '/' ∧ c3 = ']' ∧ c4 = '*' then
          (parseBodyF fuel rest2).map (RTok.hostStar :: ·)
        else none
      | _ => none
    else if c = '.' then
      match rest with
      | d :: rest2 => if d = '*' then (parseBodyF fuel rest2).map (RTok.pathStar :: ·) else none
      | [] => none
    else if c = '\\' then
      match rest with
      | d :: rest2 => (parseBodyF fuel rest2).map (RTok.lit d :: ·)
      | [] => none
    else if isSpecialChar c then none
    else (parseBodyF fuel rest).map (RTok.lit c :: ·)

/-- Parse the body of a regex in the fragment emitted by schemeToRegex:
a sequence of escaped or plain literals, host-wildcard classes and
dot-stars.  Any other use of a metacharacter is rejected; quoted
patterns never contain one. -/
def parseBody (p : Str) : Option (List RTok) :=
  parseBodyF (p.length + 1) p

/-- Model of Go regexp.Compile on the anchored patterns schemeToRegex
produces: a leading caret, a parseable body, a final dollar. -/
def reCompile (p : Str) : Option (List RTok) :=
  match p with
  | [] => none
  | c :: rest =>
    if c = '^' ∧ rest.getLast? = some '$' then parseBody rest.dropLast else none

/-- Fuel-indexed matcher body; every step shrinks the combined length of
the token list and the candidate, so fuel one above that sum is exact
(the zero-fuel arm is never reached from tokMatch). -/
def tokMatchF : Nat → List RTok → Str → Bool
  | 0, _, _ => false
  | fuel + 1, ts0, s0 =>
    match ts0, s0 with
    | [], [] => true
    | [], _ :: _ => false
    | RTok.lit _ :: _, [] => false
    | RTok.lit c :: ts, d :: s => c = d && tokMatchF fuel ts s
    | RTok.hostStar :: ts, [] => tokMatchF fuel ts []
    | RTok.hostStar :: ts, d :: s =>
        tokMatchF fuel ts (d :: s) || (decide (d ≠ '/') && tokMatchF fuel (RTok.hostStar :: ts) s)
    | RTok.pathStar :: ts, [] => tokMatchF fuel ts []
    | RTok.pathStar :: ts, d :: s =>
        tokMatchF fuel ts (d :: s) || (decide (d ≠ '\n') && tokMatchF fuel (RTok.pathStar :: ts) s)

/-- Evaluate a token sequence against a whole candidate string (the
patterns are anchored, so matching anywhere equals matching all of it):
a literal consumes its character, a star token consumes any number of
characters outside its excluded one. -/
def tokMatch (ts : List RTok) (s : Str) : Bool :=
  tokMatchF (ts.length + s.length + 1) ts s

/-- Run an optional compiled matcher the way matchScheme does: a missing
matcher never matches. -/
def evalMatcher (re : Option (List RTok)) (t : Str) : Bool :=
  match re with
  | none => false
  | some ts => tokMatch ts t

/-- The compiled-regex cache: an association list from scheme strings to
compiled matchers (a sequential model of the regexCache map; Go map
insertion on a fresh key is modelled as appending the binding). -/
abbrev RegexCache := List (Str × List RTok)

/-- Association-list lookup modelling a Go map read. -/
def cacheLookup (cache : RegexCache) (key : Str) : Option (List RTok) :=
  match cache with
  | [] => none
  | (k, re) :: rest => if k = key then some re else cacheLookup rest key

/-- getCompiledRegex from the source: return the cached matcher when the
scheme is present; otherwise compile schemeToRegex of the scheme,
caching and returning the result on success and returning none (and
caching nothing) on failure. -/
def getCompiledRegex (cache : RegexCache) (scheme : Str) : Option (List RTok) × RegexCache :=
  match cacheLookup cache scheme with
  | some re => (some re, cache)
  | none =>
    match reCompile (schemeToRegex scheme) with
    | none => (none, cache)
    | some re => (some re, cache ++ [(scheme, re)])

/-- matchScheme from the source (regex variant): a scheme whose regex is
unavailable never matches; otherwise evaluate the compiled matcher on
the candidate URL.  The updated cache is returned alongside the result. -/
def matchScheme (cache : RegexCache) (targetURL scheme : Str) : Bool × RegexCache :=
  match getCompiledRegex cache scheme with
  | (none, c) => (false, c)
  | (some re, c) => (tokMatch re targetURL, c)

/-- The boolean a matchScheme call computes, separated from the cache
threading (equal to it on any well-formed cache; see matchScheme_fst). -/
def matchPure (targetURL scheme : Str) : Bool :=
  match reCompile (schemeToRegex scheme) with
  | none => false
  | some re => tokMatch re targetURL

/-- A cache is well formed when every stored matcher is the compiled
regex of its key; every cache the code can build is. -/
def CacheWF (cache : RegexCache) : Prop :=
  ∀ p ∈ cache, reCompile (schemeToRegex p.1) = some p.2

/-- Run a sequence of matchScheme calls (candidate, scheme) for their
effect on the cache. -/
def runMatchCalls (cache : RegexCache) : List (Str × Str) → RegexCache
  | [] => cache
  | (t, s) :: rest => runMatchCalls (matchScheme cache t s).2 rest

/-- OEmbedEndpoint from the source. -/
structure OEmbedEndpoint where
  Schemes : List Str
  URL : Str
  Discovery : Bool
deriving DecidableEq, Repr

/-- OEmbedProvider from the source. -/
structure OEmbedProvider where
  Name : Str
  URL : Str
  Endpoints : List OEmbedEndpoint
deriving DecidableEq, Repr

/-- The innermost loop of findOEmbedEndpoint: does any scheme of the
list match the target (the first match stops the scan)? -/
def schemesMatchFirst : RegexCache → Str → List Str → Bool × RegexCache
  | cache, _, [] => (false, cache)
  | cache, t, s :: rest =>
    let r := matchScheme cache t s
    if r.1 then (true, r.2) else schemesMatchFirst r.2 t rest

/-- The endpoint loop of findOEmbedEndpoint: the URL of the first
endpoint one of whose schemes matches. -/
def endpointsFind : RegexCache → Str → List OEmbedEndpoint → Option Str × RegexCache
  | cache, _, [] => (none, cache)
  | cache, t, e :: rest =>
    let r := schemesMatchFirst cache t e.Schemes
    if r.1 then (some e.URL, r.2) else endpointsFind r.2 t rest

/-- The provider loop of findOEmbedEndpoint. -/
def providersFind : RegexCache → Str → List OEmbedProvider → Option Str × RegexCache
  | cache, _, [] => (none, cache)
  | cache, t, p :: rest =>
    let r := endpointsFind cache t p.Endpoints
    match r.1 with
    | some u => (some u, r.2)
    | none => providersFind r.2 t rest

/-- findOEmbedEndpoint from the source, with the provider registry and
the regex cache passed explicitly (in the source both are package-level
variables): scan providers, their endpoints and their schemes in order
and return the first matching endpoint URL, or the empty string. -/
def findOEmbedEndpoint (providers : List OEmbedProvider) (cache : RegexCache) (t : Str) :
    Str × RegexCache :=
  let r := providersFind cache t providers
  match r.1 with
  | some u => (u, r.2)
  | none => ([], r.2)

/-- IsOEmbedSupported from the source: a nonempty resolved endpoint. -/
def IsOEmbedSupported (providers : List OEmbedProvider) (cache : RegexCache) (t : Str) :
    Bool × RegexCache :=
  let r := findOEmbedEndpoint providers cache t
  (decide (r.1 ≠ []), r.2)

/-- Endpoint resolution as the specification words it: iterate providers
in registration order, endpoints in declaration order, schemes in
declaration order; the first endpoint one of whose schemes matches wins
and its URL is returned; otherwise the empty string (not an error). -/
def resolveKnownSpec (providers : List OEmbedProvider) (t : Str) : Str :=
  (providers.findSome? (fun p =>
     p.Endpoints.findSome? (fun e =>
       if e.Schemes.any (fun s => matchPure t s) then some e.URL else none))).getD []

/-- normalizeURL from the source: prefix https when no scheme separator
occurs in the URL. -/
def normalizeURL (t : Str) : Str :=
  if isInfixL (str "://") t then t else str "https://" ++ t

/-- OEmbed record from the source (decoded oEmbed response). -/
structure OEmbed where
  Type' : Str
  Version : Str
  Title : Str
  AuthorName : Str
  AuthorURL : Str
  ProviderName : Str
  ProviderURL : Str
  CacheAge : Int
  ThumbnailURL : Str
  ThumbnailWidth : Int
  ThumbnailHeight : Int
  URL : Str
  Width : Int
  Height : Int
  HTML : Str
deriving DecidableEq, Repr

/-- A network call ExtractOEmbed can issue. -/
inductive NetCall where
  /-- A fetchOEmbed request to an endpoint for a target URL. -/
  | oembedFetch (endpoint targetURL : Str)
  /-- A discoverOEmbedEndpoint page fetch for a target URL. -/
  | discoveryFetch (targetURL : Str)
deriving DecidableEq, Repr

/-- The network-dependent collaborators of the orchestration, as
deterministic oracles: fetch gives the outcome of fetchOEmbed at an
endpoint/target pair (none for any transport, status or decode error),
discover gives the outcome of discoverOEmbedEndpoint (none for an
error; an empty string for a page advertising no oEmbed link). -/
structure NetEnv where
  fetch : Str → Str → Option OEmbed
  discover : Str → Option Str

/-- The message of the final not-found error of ExtractOEmbed. -/
def notFoundMsg (t : Str) : Str := str "oEmbed endpoint not found for URL: " ++ t

/-- Steps 2 and 3 of ExtractOEmbed: try HTML discovery; when it succeeds
with a nonempty endpoint, try the oEmbed fetch with it; otherwise, and
when that fetch fails, fail with the not-found error naming the
(already normalized) target.  The trace of issued network calls is
accumulated onto calls. -/
def extractDiscovery (env : NetEnv) (cache : RegexCache) (t : Str) (calls : List NetCall) :
    (Option OEmbed × Option Str) × RegexCache × List NetCall :=
  let calls2 := calls ++ [NetCall.discoveryFetch t]
  match env.discover t with
  | some d =>
    if d ≠ [] then
      match env.fetch d t with
      | some o => ((some o, none), cache, calls2 ++ [NetCall.oembedFetch d t])
      | none => ((none, some (notFoundMsg t)), cache, calls2 ++ [NetCall.oembedFetch d t])
    else ((none, some (notFoundMsg t)), cache, calls2)
  | none => ((none, some (notFoundMsg t)), cache, calls2)

/-- ExtractOEmbed from the source: normalize the target, resolve a known
endpoint; when one exists, fetch from it and return the record on
success; in every other case fall through to discovery.  The result is
the pair of Go return values (record, error) together with the final
cache and the trace of network calls. -/
def ExtractOEmbed (env : NetEnv) (providers : List OEmbedProvider) (cache : RegexCache)
    (targetURL : Str) : (Option OEmbed × Option Str) × RegexCache × List NetCall :=
  let t := normalizeURL targetURL
  let fr := findOEmbedEndpoint providers cache t
  if fr.1 ≠ [] then
    match env.fetch fr.1 t with
    | some o => ((some o, none), fr.2, [NetCall.oembedFetch fr.1 t])
    | none => extractDiscovery env fr.2 t [NetCall.oembedFetch fr.1 t]
  else extractDiscovery env fr.2 t []

/-- matchScheme from oembed.go (the substring-based variant): delete the
wildcards from the scheme, strip one scheme prefix from both strings,
and require every nonempty slash-separated piece of the stripped scheme
to occur somewhere in the stripped target. -/
def matchSchemeNaive (targetURL scheme : Str) : Bool :=
  let scheme1 := replaceAllSub (str "*") [] scheme
  let scheme2 := replaceOnceSub (str "http://") [] scheme1
  let scheme3 := replaceOnceSub (str "https://") [] scheme2
  let target1 := replaceOnceSub (str "http://") [] targetURL
  let target2 := replaceOnceSub (str "https://") [] target1
  let parts := splitAllElem '/' scheme3
  parts.all (fun part => part = [] || isInfixL part target2)

/-!
### Byte-level model of the scheme matcher

Go strings are byte sequences, and Go regexp compilation rejects a
pattern containing invalid UTF-8; on the fully escaped patterns that
schemeToRegex emits this is the only way compilation can fail.  To
settle the compile-failure behaviour the pipeline is replayed on byte
lists.  Literal matching compares bytes and the star tokens exclude the
slash and newline bytes, which agrees with Go's rune-level semantics on
valid UTF-8 data because neither byte can occur inside a multi-byte
encoding.
-/

/-- A Go string as its bytes. -/
abbrev Bytes := List Nat

/-- Bytes of an ASCII Lean string literal. -/
def bstr (s : String) : Bytes := s.data.map Char.toNat

/-- The bytes Go regexp.QuoteMeta escapes (same set as isSpecialChar). -/
def isSpecialByte (b : Nat) : Bool :=
  b = 92 || b = 46 || b = 43 || b = 42 || b = 63 || b = 40 || b = 41 ||
  b = 124 || b = 91 || b = 93 || b = 123 || b = 125 || b = 94 || b = 36

/-- Go regexp.QuoteMeta at the byte level. -/
def quoteMetaB : Bytes → Bytes
  | [] => []
  | b :: bs => if isSpecialByte b then 92 :: b :: quoteMetaB bs else b :: quoteMetaB bs

/-- The escaped wildcard as bytes (backslash, star). -/
def escStarB : Bytes := [92, 42]

/-- The host-segment replacement as bytes (the slash-excluding class). -/
def hostClassB : Bytes := [91, 94, 47, 93, 42]

/-- The path-segment replacement as bytes (dot, star). -/
def dotStarB : Bytes := [46, 42]

/-- schemeToRegex at the byte level (47 is the slash, 94 the caret, 36
the dollar). -/
def schemeToRegexB (scheme : Bytes) : Bytes :=
  let pattern := quoteMetaB scheme
  let parts := splitNElem 47 4 pattern
  let pattern2 :=
    if 3 ≤ parts.length then
      let parts2 := parts.set 2 (replaceAllSub escStarB hostClassB (parts.getD 2 []))
      let parts3 :=
        if 4 ≤ parts2.length then
          parts2.set 3 (replaceAllSub escStarB dotStarB (parts2.getD 3 []))
        else parts2
      joinSep 47 parts3
    else replaceAllSub escStarB dotStarB pattern
  94 :: pattern2 ++ [36]

/-- A UTF-8 continuation byte. -/
def isContByte (b : Nat) : Bool := 128 ≤ b && b ≤ 191

/-- Validity of a byte sequence as UTF-8, as Go utf8.DecodeRune accepts
it: minimal encodings only, surrogate code points and code points above
the Unicode maximum rejected. -/
def validUTF8 : Bytes → Bool
  | [] => true
  | b :: rest =>
    if b ≤ 127 then validUTF8 rest
    else if 194 ≤ b ∧ b ≤ 223 then
      match rest with
      | b1 :: rest2 => isContByte b1 && validUTF8 rest2
      | [] => false
    else if b = 224 then
      match rest with
      | b1 :: b2 :: rest2 => (160 ≤ b1 && b1 ≤ 191) && (isContByte b2 && validUTF8 rest2)
      | _ => false
    else if (225 ≤ b ∧ b ≤ 236) ∨ b = 238 ∨ b = 239 then
      match rest with
      | b1 :: b2 :: rest2 => isContByte b1 && (isContByte b2 && validUTF8 rest2)
      | _ => false
    else if b = 237 then
      match rest with
      | b1 :: b2 :: rest2 => (128 ≤ b1 && b1 ≤ 159) && (isContByte b2 && validUTF8 rest2)
      | _ => false
    else if b = 240 then
      match rest with
      | b1 :: b2 :: b3 :: rest2 =>
          (144 ≤ b1 && b1 ≤ 191) && (isContByte b2 && (isContByte b3 && validUTF8 rest2))
      | _ => false
    else if 241 ≤ b ∧ b ≤ 243 then
      match rest with
      | b1 :: b2 :: b3 :: rest2 =>
          isContByte b1 && (isContByte b2 && (isContByte b3 && validUTF8 rest2))
      | _ => false
    else if b = 244 then
      match rest with
      | b1 :: b2 :: b3 :: rest2 =>
          (128 ≤ b1 && b1 ≤ 143) && (isContByte b2 && (isContByte b3 && validUTF8 rest2))
      | _ => false
    else false

/-- Tokens of the byte-level regex fragment. -/
inductive RTokB where
  /-- A literal byte. -/
  | lit (b : Nat)
  /-- The slash-excluding class, starred. -/
  | hostStar
  /-- Dot-star. -/
  | pathStar
deriving DecidableEq, Repr

/-- Fuel-indexed byte-level body parser (see parseBodyF). -/
def parseBodyBF : Nat → Bytes → Option (List RTokB)
  | _, [] => some []
  | 0, _ :: _ => none
  | fuel + 1, b :: rest =>
    if b = 91 then
      match rest with
      | b1 :: b2 :: b3 :: b4 :: rest2 =>
        if b1 = 94 ∧ b2 = 47 ∧ b3 = 93 ∧ b4 = 42 then
          (parseBodyBF fuel rest2).map (RTokB.hostStar :: ·)
        else none
      | _ => none
    else if b = 46 then
      match rest with
      | d :: rest2 => if d = 42 then (parseBodyBF fuel rest2).map (RTokB.pathStar :: ·) else none
      | [] => none
    else if b = 92 then
      match rest with
      | d :: rest2 => (parseBodyBF fuel rest2).map (RTokB.lit d :: ·)
      | [] => none
    else if isSpecialByte b then none
    else (parseBodyBF fuel rest).map (RTokB.lit b :: ·)

/-- Byte-level body parser for the fragment schemeToRegex emits. -/
def parseBodyB (p : Bytes) : Option (List RTokB) :=
  parseBodyBF (p.length + 1) p

/-- Byte-level model of Go regexp.Compile on the anchored patterns
schemeToRegex produces: the pattern must be valid UTF-8 (otherwise Go
reports an invalid-UTF-8 parse error) and of the anchored shape. -/
def reCompileB (p : Bytes) : Option (List RTokB) :=
  if validUTF8 p then
    match p with
    | [] => none
    | b :: rest =>
      if b = 94 ∧ rest.getLast? = some 36 then parseBodyB rest.dropLast else none
  else none

/-- Fuel-indexed byte-level matcher body (see tokMatchF). -/
def tokMatchBF : Nat → List RTokB → Bytes → Bool
  | 0, _, _ => false
  | fuel + 1, ts0, s0 =>
    match ts0, s0 with
    | [], [] => true
    | [], _ :: _ => false
    | RTokB.lit _ :: _, [] => false
    | RTokB.lit c :: ts, d :: s => c = d && tokMatchBF fuel ts s
    | RTokB.hostStar :: ts, [] => tokMatchBF fuel ts []
    | RTokB.hostStar :: ts, d :: s =>
        tokMatchBF fuel ts (d :: s) || (decide (d ≠ 47) && tokMatchBF fuel (RTokB.hostStar :: ts) s)
    | RTokB.pathStar :: ts, [] => tokMatchBF fuel ts []
    | RTokB.pathStar :: ts, d :: s =>
        tokMatchBF fuel ts (d :: s) || (decide (d ≠ 10) && tokMatchBF fuel (RTokB.pathStar :: ts) s)

/-- Byte-level matcher evaluation. -/
def tokMatchB (ts : List RTokB) (s : Bytes) : Bool :=
  tokMatchBF (ts.length + s.length + 1) ts s

/-- The byte-level compiled-regex cache. -/
abbrev RegexCacheB := List (Bytes × List RTokB)

/-- Byte-level association-list lookup. -/
def cacheLookupB (cache : RegexCacheB) (key : Bytes) : Option (List RTokB) :=
  match cache with
  | [] => none
  | (k, re) :: rest => if k = key then some re else cacheLookupB rest key

/-- getCompiledRegex at the byte level. -/
def getCompiledRegexB (cache : RegexCacheB) (scheme : Bytes) : Option (List RTokB) × RegexCacheB :=
  match cacheLookupB cache scheme with
  | some re => (some re, cache)
  | none =>
    match reCompileB (schemeToRegexB scheme) with
    | none => (none, cache)
    | some re => (some re, cache ++ [(scheme, re)])

/-- matchScheme at the byte level. -/
def matchSchemeB (cache : RegexCacheB) (targetURL scheme : Bytes) : Bool × RegexCacheB :=
  match getCompiledRegexB cache scheme with
  | (none, c) => (false, c)
  | (some re, c) => (tokMatchB re targetURL, c)

/-- Run a sequence of byte-level matchScheme calls for their cache
effect. -/
def runMatchCallsB (cache : RegexCacheB) : List (Bytes × Bytes) → RegexCacheB
  | [] => cache
  | (t, s) :: rest => runMatchCallsB (matchSchemeB cache t s).2 rest

/-!
### Heap model of the provider slices

GetKnownProviders returns a fresh top-level slice whose elements are
struct copies of the registry's elements; a copied struct carries the
same Endpoints slice header, so the endpoint arrays themselves stay
shared.  Slices are modelled as indices into stores of arrays: one
store of provider arrays, one of endpoint arrays.  The package-level
knownProviders variable is an index into the provider-array store.
-/

/-- An endpoint struct held in an endpoint array. -/
structure EndpointData where
  Schemes : List Str
  URL : Str
  Discovery : Bool
deriving DecidableEq, Repr

/-- A provider struct as stored in a provider array: its Endpoints
field is a slice header, i.e. a reference into the endpoint-array
store. -/
structure ProviderCell where
  Name : Str
  URL : Str
  EndpointsRef : Nat
deriving DecidableEq, Repr

/-- The two stores backing provider and endpoint slices. -/
structure Heap where
  provArrays : List (List ProviderCell)
  endArrays : List (List EndpointData)
deriving DecidableEq, Repr

/-- GetKnownProviders from the source: allocate a new provider array of
the registry's length and copy the registry's element structs into it
(the copies keep their EndpointsRef).  Returns the reference to the new
array and the grown heap; knownRef is the registry's own array. -/
def GetKnownProviders (h : Heap) (knownRef : Nat) : Nat × Heap :=
  (h.provArrays.length,
   { h with provArrays := h.provArrays ++ [h.provArrays.getD knownRef []] })

/-- GetSupportedProviders from the source: an alias of
GetKnownProviders. -/
def GetSupportedProviders (h : Heap) (knownRef : Nat) : Nat × Heap :=
  GetKnownProviders h knownRef

/-- A caller overwriting element i of a provider slice (for example
replacing the provider or assigning its Name). -/
def writeProvCell (h : Heap) (r i : Nat) (c : ProviderCell) : Heap :=
  { h with provArrays := h.provArrays.set r ((h.provArrays.getD r []).set i c) }

/-- A caller writing the URL of entry j of an endpoint array through a
provider's Endpoints slice header. -/
def writeEndpointURL (h : Heap) (er j : Nat) (u : Str) : Heap :=
  let eps := h.endArrays.getD er []
  match eps.get? j with
  | none => h
  | some e => { h with endArrays := h.endArrays.set er (eps.set j { e with URL := u }) }

/-- A registry read: the fully dereferenced provider data seen through a
provider-slice reference. -/
def derefProviders (h : Heap) (r : Nat) : List (Str × Str × List EndpointData) :=
  (h.provArrays.getD r []).map (fun c => (c.Name, c.URL, h.endArrays.getD c.EndpointsRef []))

/-- A registry read of one endpoint URL: provider i of the slice at r,
entry j of its endpoint array. -/
def readEndpointURLvia (h : Heap) (r i j : Nat) : Option Str :=
  match (h.provArrays.getD r []).get? i with
  | none => none
  | some c => ((h.endArrays.getD c.EndpointsRef []).get? j).map (fun e => e.URL)

/-! ### Lemmas: the matcher is fuel-independent, and star semantics -/

theorem tokMatchF_congr (f : Nat) : ∀ (g : Nat) (ts : List RTok) (s : Str),
    ts.length + s.length < f → ts.length + s.length < g →
    tokMatchF f ts s = tokMatchF g ts s := by
  induction f with
  | zero => intro g ts s hf _; exact absurd hf (Nat.not_lt_zero _)
  | succ f ih =>
    intro g ts s hf hg
    cases g with
    | zero => exact absurd hg (Nat.not_lt_zero _)
    | succ g =>
      cases ts with
      | nil => cases s with
        | nil => rfl
        | cons d s => rfl
      | cons t ts =>
        cases t with
        | lit c =>
          cases s with
          | nil => rfl
          | cons d s =>
            simp only [List.length_cons] at hf hg
            simp only [tokMatchF]
            rw [ih g ts s (by omega) (by omega)]
        | hostStar =>
          cases s with
          | nil =>
            simp only [List.length_cons, List.length_nil] at hf hg
            simp only [tokMatchF]
            exact ih g ts [] (by simp only [List.length_nil]; omega)
              (by simp only [List.length_nil]; omega)
          | cons d s =>
            simp only [List.length_cons] at hf hg
            simp only [tokMatchF]
            rw [ih g ts (d :: s) (by simp only [List.length_cons]; omega)
                  (by simp only [List.length_cons]; omega),
                ih g (RTok.hostStar :: ts) s (by simp only [List.length_cons]; omega)
                  (by simp only [List.length_cons]; omega)]
        | pathStar =>
          cases s with
          | nil =>
            simp only [List.length_cons, List.length_nil] at hf hg
            simp only [tokMatchF]
            exact ih g ts [] (by simp only [List.length_nil]; omega)
              (by simp only [List.length_nil]; omega)
          | cons d s =>
            simp only [List.length_cons] at hf hg
            simp only [tokMatchF]
            rw [ih g ts (d :: s) (by simp only [List.length_cons]; omega)
                  (by simp only [List.length_cons]; omega),
                ih g (RTok.pathStar :: ts) s (by simp only [List.length_cons]; omega)
                  (by simp only [List.length_cons]; omega)]

theorem tokMatchF_eq (f : Nat) (ts : List RTok) (s : Str)
    (h : ts.length + s.length < f) : tokMatchF f ts s = tokMatch ts s :=
  tokMatchF_congr f (ts.length + s.length + 1) ts s h (Nat.lt_succ_self _)

theorem tokMatch_lit_cons (c : Char) (ts : List RTok) (d : Char) (s : Str) :
    tokMatch (RTok.lit c :: ts) (d :: s) = (decide (c = d) && tokMatch ts s) := by
  have h : tokMatch (RTok.lit c :: ts) (d :: s)
      = (decide (c = d) && tokMatchF ((RTok.lit c :: ts).length + (d :: s).length) ts s) := rfl
  rw [h, tokMatchF_eq _ ts s (by simp only [List.length_cons]; omega)]

theorem tokMatch_host_nil (ts : List RTok) :
    tokMatch (RTok.hostStar :: ts) [] = tokMatch ts [] := by
  have h : tokMatch (RTok.hostStar :: ts) ([] : Str)
      = tokMatchF ((RTok.hostStar :: ts).length + ([] : Str).length) ts [] := rfl
  rw [h, tokMatchF_eq _ ts [] (by simp only [List.length_cons, List.length_nil]; omega)]

theorem tokMatch_host_cons (ts : List RTok) (d : Char) (s : Str) :
    tokMatch (RTok.hostStar :: ts) (d :: s) =
      (tokMatch ts (d :: s) || (decide (d ≠ '/') && tokMatch (RTok.hostStar :: ts) s)) := by
  have h : tokMatch (RTok.hostStar :: ts) (d :: s)
      = (tokMatchF ((RTok.hostStar :: ts).length + (d :: s).length) ts (d :: s)
         || (decide (d ≠ '/')
             && tokMatchF ((RTok.hostStar :: ts).length + (d :: s).length)
                  (RTok.hostStar :: ts) s)) := rfl
  rw [h, tokMatchF_eq _ ts (d :: s) (by simp only [List.length_cons]; omega),
      tokMatchF_eq _ (RTok.hostStar :: ts) s (by simp only [List.length_cons]; omega)]

theorem tokMatch_lits_iff : ∀ (p t : Str), tokMatch (p.map RTok.lit) t = true ↔ t = p := by
  intro p
  induction p with
  | nil =>
    intro t
    cases t with
    | nil => simp [tokMatch, tokMatchF]
    | cons d s => simp [tokMatch, tokMatchF]
  | cons c p ih =>
    intro t
    cases t with
    | nil => simp [tokMatch, tokMatchF]
    | cons d s =>
      rw [List.map_cons, tokMatch_lit_cons]
      simp only [Bool.and_eq_true, decide_eq_true_eq, ih, List.cons.injEq]
      constructor
      · rintro ⟨h1, h2⟩; exact ⟨h1.symm, h2⟩
      · rintro ⟨h1, h2⟩; exact ⟨h1.symm, h2⟩

theorem tokMatch_lit_peel : ∀ (p : Str) (ts : List RTok) (s : Str),
    tokMatch (p.map RTok.lit ++ ts) (p ++ s) = tokMatch ts s := by
  intro p
  induction p with
  | nil => intro ts s; rfl
  | cons c p ih =>
    intro ts s
    simp only [List.map_cons, List.cons_append, tokMatch_lit_cons, ih, decide_eq_true_eq]
    simp

theorem hostStar_absorb (ts : List RTok) : ∀ (w s : Str), '/' ∉ w →
    tokMatch (RTok.hostStar :: ts) s = true →
    tokMatch (RTok.hostStar :: ts) (w ++ s) = true := by
  intro w
  induction w with
  | nil => intro s _ hm; exact hm
  | cons a w ih =>
    intro s hw hm
    have ha : a ≠ '/' := fun h => hw (h ▸ List.mem_cons_self a w)
    have hw' : '/' ∉ w := fun h => hw (List.mem_cons_of_mem a h)
    rw [List.cons_append, tokMatch_host_cons]
    have := ih s hw' hm
    simp [this, ha]

theorem hostStar_iff (ts : List RTok) : ∀ (s : Str),
    tokMatch (RTok.hostStar :: ts) s = true ↔
      ∃ w t, s = w ++ t ∧ '/' ∉ w ∧ tokMatch ts t = true := by
  intro s
  induction s with
  | nil =>
    rw [tokMatch_host_nil]
    constructor
    · intro h; exact ⟨[], [], rfl, by simp, h⟩
    · rintro ⟨w, t, hs, _, ht⟩
      rcases List.append_eq_nil.mp hs.symm with ⟨hw0, ht0⟩
      exact ht0 ▸ ht
  | cons d s ih =>
    rw [tokMatch_host_cons]
    constructor
    · intro h
      rcases Bool.or_eq_true_iff.mp h with h1 | h2
      · exact ⟨[], d :: s, rfl, by simp, h1⟩
      · rcases Bool.and_eq_true_iff.mp h2 with ⟨hd, hm⟩
        rcases ih.mp hm with ⟨w, t, hs, hw, ht⟩
        refine ⟨d :: w, t, by rw [hs]; rfl, ?_, ht⟩
        intro hmem
        rcases List.mem_cons.mp hmem with h3 | h3
        · exact (decide_eq_true_eq.mp hd) h3.symm
        · exact hw h3
    · rintro ⟨w, t, hs, hw, ht⟩
      cases w with
      | nil =>
        apply Bool.or_eq_true_iff.mpr
        left
        rw [List.nil_append] at hs
        rw [hs]; exact ht
      | cons a w' =>
        rw [List.cons_append] at hs
        simp only [List.cons.injEq] at hs
        obtain ⟨hda, hst⟩ := hs
        have ha : a ≠ '/' := fun h => hw (h ▸ List.mem_cons_self a w')
        have hw' : '/' ∉ w' := fun h => hw (List.mem_cons_of_mem a h)
        have hm : tokMatch (RTok.hostStar :: ts) s = true := ih.mpr ⟨w', t, hst, hw', ht⟩
        apply Bool.or_eq_true_iff.mpr
        right
        rw [hda]
        simp [ha, hm]

/-! ### Lemmas: cache behaviour -/

theorem cacheLookup_mem : ∀ (cache : RegexCache) (s : Str) (re : List RTok),
    cacheLookup cache s = some re → (s, re) ∈ cache := by
  intro cache
  induction cache with
  | nil => intro s re h; simp [cacheLookup] at h
  | cons p rest ih =>
    intro s re h
    obtain ⟨k, r⟩ := p
    simp only [cacheLookup] at h
    by_cases hk : k = s
    · rw [if_pos hk] at h
      injection h with h2
      subst h2; subst hk
      exact List.mem_cons_self _ _
    · rw [if_neg hk] at h
      exact List.mem_cons_of_mem _ (ih s re h)

theorem matchScheme_fst (cache : RegexCache) (t s : Str) (hwf : CacheWF cache) :
    (matchScheme cache t s).1 = matchPure t s := by
  cases hl : cacheLookup cache s with
  | some re =>
    have hre : reCompile (schemeToRegex s) = some re := hwf (s, re) (cacheLookup_mem cache s re hl)
    simp [matchScheme, getCompiledRegex, matchPure, hl, hre]
  | none =>
    cases hc : reCompile (schemeToRegex s) with
    | none => simp [matchScheme, getCompiledRegex, matchPure, hl, hc]
    | some re => simp [matchScheme, getCompiledRegex, matchPure, hl, hc]

theorem matchScheme_snd (cache : RegexCache) (t s : Str) :
    (matchScheme cache t s).2 = cache ∨
    (cacheLookup cache s = none ∧ ∃ re, reCompile (schemeToRegex s) = some re ∧
      (matchScheme cache t s).2 = cache ++ [(s, re)]) := by
  cases hl : cacheLookup cache s with
  | some re => left; simp [matchScheme, getCompiledRegex, hl]
  | none =>
    cases hc : reCompile (schemeToRegex s) with
    | none => left; simp [matchScheme, getCompiledRegex, hl, hc]
    | some re =>
      right
      exact ⟨rfl, re, rfl, by simp [matchScheme, getCompiledRegex, hl, hc]⟩

theorem matchScheme_wf (cache : RegexCache) (t s : Str) (hwf : CacheWF cache) :
    CacheWF (matchScheme cache t s).2 := by
  rcases matchScheme_snd cache t s with h | ⟨hl, re, hc, h⟩
  · rw [h]; exact hwf
  · rw [h]
    intro p hp
    rcases List.mem_append.mp hp with hp1 | hp2
    · exact hwf p hp1
    · have hps : p = (s, re) := List.mem_singleton.mp hp2
      subst hps
      exact hc

theorem cacheWF_nil : CacheWF [] := by
  intro p hp
  exact absurd hp (List.not_mem_nil p)

theorem cacheLookup_append_right (c1 c2 : RegexCache) (s : Str)
    (h : cacheLookup c1 s = none) : cacheLookup (c1 ++ c2) s = cacheLookup c2 s := by
  induction c1 with
  | nil => rfl
  | cons p rest ih =>
    obtain ⟨k, r⟩ := p
    rw [List.cons_append]
    simp only [cacheLookup] at h ⊢
    by_cases hk : k = s
    · rw [if_pos hk] at h; exact absurd h (by simp)
    · rw [if_neg hk] at h
      rw [if_neg hk]
      exact ih h

theorem getCompiledRegex_twice (cache : RegexCache) (s : Str) :
    getCompiledRegex (getCompiledRegex cache s).2 s = getCompiledRegex cache s := by
  cases hl : cacheLookup cache s with
  | some re => simp [getCompiledRegex, hl]
  | none =>
    cases hc : reCompile (schemeToRegex s) with
    | none => simp [getCompiledRegex, hl, hc]
    | some re =>
      have h2 : cacheLookup (cache ++ [(s, re)]) s = some re := by
        rw [cacheLookup_append_right cache _ s hl]
        simp [cacheLookup]
      simp [getCompiledRegex, hl, hc, h2]

theorem cacheLookup_none_keys (cache : RegexCache) (s : Str)
    (h : cacheLookup cache s = none) : s ∉ cache.map Prod.fst := by
  induction cache with
  | nil => simp
  | cons p rest ih =>
    obtain ⟨k, r⟩ := p
    simp only [cacheLookup] at h
    by_cases hk : k = s
    · rw [if_pos hk] at h; exact absurd h (by simp)
    · rw [if_neg hk] at h
      simp only [List.map_cons, List.mem_cons]
      rintro (h1 | h2)
      · exact hk h1.symm
      · exact ih h h2

theorem nodup_keys_append (keys : List Str) (s : Str) (h1 : keys.Nodup) (h2 : s ∉ keys) :
    (keys ++ [s]).Nodup := by
  induction keys with
  | nil => simp
  | cons a ks ih =>
    rw [List.cons_append]
    rcases List.nodup_cons.mp h1 with ⟨ha, hks⟩
    apply List.nodup_cons.mpr
    constructor
    · intro hmem
      rcases List.mem_append.mp hmem with hm | hm
      · exact ha hm
      · have haz : a = s := List.mem_singleton.mp hm
        exact h2 (haz ▸ List.mem_cons_self a ks)
    · exact ih hks (fun hm => h2 (List.mem_cons_of_mem a hm))

theorem matchScheme_keys_nodup (cache : RegexCache) (t s : Str)
    (h : (cache.map Prod.fst).Nodup) : ((matchScheme cache t s).2.map Prod.fst).Nodup := by
  rcases matchScheme_snd cache t s with hs | ⟨hl, re, hc, hs⟩
  · rw [hs]; exact h
  · rw [hs, List.map_append]
    exact nodup_keys_append _ s h (cacheLookup_none_keys cache s hl)

theorem runMatchCalls_keys_nodup (calls : List (Str × Str)) : ∀ (cache : RegexCache),
    (cache.map Prod.fst).Nodup → ((runMatchCalls cache calls).map Prod.fst).Nodup := by
  induction calls with
  | nil => intro cache h; exact h
  | cons c rest ih =>
    intro cache h
    obtain ⟨t, s⟩ := c
    exact ih _ (matchScheme_keys_nodup cache t s h)

/-! ### Lemmas: parsing quoted patterns -/

theorem parseBodyF_quoteMeta : ∀ (fuel : Nat) (s : Str), (quoteMeta s).length < fuel →
    parseBodyF fuel (quoteMeta s) = some (s.map RTok.lit) := by
  intro fuel
  induction fuel with
  | zero => intro s h; exact absurd h (Nat.not_lt_zero _)
  | succ fuel ih =>
    intro s hlen
    cases s with
    | nil => rfl
    | cons c cs =>
      by_cases hc : isSpecialChar c = true
      · rw [quoteMeta, if_pos hc] at hlen ⊢
        have hstep : parseBodyF (fuel + 1) ('\\' :: c :: quoteMeta cs)
            = (parseBodyF fuel (quoteMeta cs)).map (RTok.lit c :: ·) := rfl
        rw [hstep, ih cs (by simp only [List.length_cons] at hlen; omega)]
        rfl
      · rw [quoteMeta, if_neg hc] at hlen ⊢
        have h1 : ¬(c = '[') := fun h => absurd (h ▸ hc) (by decide)
        have h2 : ¬(c = '.') := fun h => absurd (h ▸ hc) (by decide)
        have h3 : ¬(c = '\\') := fun h => absurd (h ▸ hc) (by decide)
        simp only [parseBodyF, if_neg h1, if_neg h2, if_neg h3, if_neg hc]
        rw [ih cs (by simp only [List.length_cons] at hlen; omega)]
        rfl

theorem parseBody_quoteMeta (s : Str) : parseBody (quoteMeta s) = some (s.map RTok.lit) :=
  parseBodyF_quoteMeta ((quoteMeta s).length + 1) s (Nat.lt_succ_self _)

theorem getLastQ_append_single : ∀ (l : List α) (a : α), (l ++ [a]).getLast? = some a := by
  intro l a
  induction l with
  | nil => rfl
  | cons b l ih =>
    rw [List.cons_append]
    cases hl : l ++ [a] with
    | nil => exact absurd hl (by simp)
    | cons x xs =>
      rw [List.getLast?_cons_cons]
      rw [← hl, ih]

theorem dropLast_append_single : ∀ (l : List α) (a : α), (l ++ [a]).dropLast = l := by
  intro l a
  induction l with
  | nil => rfl
  | cons b l ih =>
    rw [List.cons_append]
    cases hl : l ++ [a] with
    | nil => exact absurd hl (by simp)
    | cons x xs =>
      rw [List.dropLast_cons₂, ← hl, ih]

theorem reCompile_anchored (body : Str) :
    reCompile (str "^" ++ body ++ str "$") = parseBody body := by
  have he : str "^" ++ body ++ str "$" = '^' :: (body ++ ['$']) := by
    simp [str, List.append_assoc]
  rw [he]
  have hstep : reCompile ('^' :: (body ++ ['$']))
      = if ('^' : Char) = '^' ∧ (body ++ ['$']).getLast? = some '$'
        then parseBody (body ++ ['$']).dropLast else none := rfl
  rw [hstep, if_pos ⟨rfl, getLastQ_append_single body '$'⟩, dropLast_append_single]

/-! ### Lemmas: patterns without a wildcard -/

theorem prefix_star_mem : ∀ (s : Str), isPrefixL (str "\\*") s = true → '*' ∈ s := by
  have he : str "\\*" = ['\\', '*'] := rfl
  intro s h
  rw [he] at h
  cases s with
  | nil => simp [isPrefixL] at h
  | cons c1 rest =>
    cases rest with
    | nil =>
      simp only [isPrefixL] at h
      by_cases h1 : '\\' = c1
      · rw [if_pos h1] at h; simp [isPrefixL] at h
      · rw [if_neg h1] at h; exact absurd h (by simp)
    | cons c2 rest2 =>
      simp only [isPrefixL] at h
      by_cases h1 : '\\' = c1
      · rw [if_pos h1] at h
        by_cases h2 : '*' = c2
        · rw [h2]
          exact List.mem_cons_of_mem c1 (List.mem_cons_self _ _)
        · rw [if_neg h2] at h; exact absurd h (by simp)
      · rw [if_neg h1] at h; exact absurd h (by simp)

theorem replaceAllF_star_id (new : Str) : ∀ (fuel : Nat) (l : Str), '*' ∉ l →
    replaceAllF (str "\\*") new fuel l = l := by
  intro fuel
  induction fuel with
  | zero =>
    intro l _
    cases l with
    | nil => rfl
    | cons c cs => rfl
  | succ fuel ih =>
    intro l h
    cases l with
    | nil => rfl
    | cons c cs =>
      have hnp : ¬(str "\\*" ≠ [] ∧ isPrefixL (str "\\*") (c :: cs) = true) := by
        rintro ⟨_, hp⟩
        exact h (prefix_star_mem _ hp)
      simp only [replaceAllF, if_neg hnp]
      rw [ih cs (fun hm => h (List.mem_cons_of_mem c hm))]

theorem replaceAllSub_star_id (new : Str) (l : Str) (h : '*' ∉ l) :
    replaceAllSub (str "\\*") new l = l :=
  replaceAllF_star_id new l.length l h

theorem quoteMeta_star_not_mem : ∀ (s : Str), '*' ∉ s → '*' ∉ quoteMeta s := by
  intro s
  induction s with
  | nil => intro _ h; simp [quoteMeta] at h
  | cons c cs ih =>
    intro hs hm
    have hc : c ≠ '*' := fun h => hs (h ▸ List.mem_cons_self c cs)
    have hcs : '*' ∉ cs := fun h => hs (List.mem_cons_of_mem c h)
    by_cases hsp : isSpecialChar c = true
    · rw [quoteMeta] at hm
      rw [if_pos hsp] at hm
      rcases List.mem_cons.mp hm with h1 | h2
      · exact absurd h1 (by decide)
      · rcases List.mem_cons.mp h2 with h3 | h4
        · exact hc h3.symm
        · exact ih hcs h4
    · rw [quoteMeta] at hm
      rw [if_neg hsp] at hm
      rcases List.mem_cons.mp hm with h1 | h2
      · exact hc h1.symm
      · exact ih hcs h2

theorem breakElem_eq [DecidableEq α] (sep : α) :
    ∀ (l a r : List α), breakElem sep l = some (a, r) → l = a ++ sep :: r := by
  intro l
  induction l with
  | nil => intro a r h; simp [breakElem] at h
  | cons c cs ih =>
    intro a r h
    simp only [breakElem] at h
    by_cases hc : c = sep
    · rw [if_pos hc] at h
      simp only [Option.some.injEq, Prod.mk.injEq] at h
      obtain ⟨ha, hr⟩ := h
      rw [← ha, List.nil_append, ← hr, hc]
    · rw [if_neg hc] at h
      cases hbe : breakElem sep cs with
      | none => rw [hbe] at h; simp at h
      | some pr =>
        obtain ⟨a', r'⟩ := pr
        rw [hbe] at h
        simp only [Option.some.injEq, Prod.mk.injEq] at h
        obtain ⟨ha, hr⟩ := h
        have hcs := ih a' r' hbe
        rw [← ha, ← hr, List.cons_append, ← hcs]

theorem splitNElem_ne_nil [DecidableEq α] (sep : α) : ∀ (n : Nat) (l : List α),
    splitNElem sep (n + 1) l ≠ [] := by
  intro n l
  cases n with
  | zero => simp [splitNElem]
  | succ n =>
    show splitNElem sep (n + 2) l ≠ []
    simp only [splitNElem]
    cases breakElem sep l with
    | none => simp
    | some pr =>
      obtain ⟨a, r⟩ := pr
      simp

theorem joinSep_splitNElem [DecidableEq α] (sep : α) : ∀ (n : Nat) (l : List α),
    joinSep sep (splitNElem sep (n + 1) l) = l := by
  intro n
  induction n with
  | zero => intro l; rfl
  | succ n ih =>
    intro l
    show joinSep sep (splitNElem sep (n + 2) l) = l
    simp only [splitNElem]
    cases hbe : breakElem sep l with
    | none => rfl
    | some pr =>
      obtain ⟨a, r⟩ := pr
      have hl := breakElem_eq sep l a r hbe
      have hne := splitNElem_ne_nil sep n r
      show joinSep sep (a :: splitNElem sep (n + 1) r) = l
      cases hsp : splitNElem sep (n + 1) r with
      | nil => exact absurd hsp hne
      | cons x xs =>
        have hj : joinSep sep (x :: xs) = r := by
          rw [← hsp]; exact ih r
        show a ++ sep :: joinSep sep (x :: xs) = l
        rw [hj, hl]

theorem mem_splitNElem [DecidableEq α] (sep : α) : ∀ (n : Nat) (l part : List α),
    part ∈ splitNElem sep n l → ∀ x ∈ part, x ∈ l := by
  intro n
  induction n with
  | zero => intro l part h; simp [splitNElem] at h
  | succ n ih =>
    intro l part h x hx
    cases n with
    | zero =>
      simp only [splitNElem, List.mem_singleton] at h
      subst h; exact hx
    | succ m =>
      rw [show m + 1 + 1 = m + 2 from rfl] at h
      simp only [splitNElem] at h
      cases hbe : breakElem sep l with
      | none =>
        rw [hbe] at h
        simp only [List.mem_singleton] at h
        subst h; exact hx
      | some pr =>
        obtain ⟨a, r⟩ := pr
        rw [hbe] at h
        have hl := breakElem_eq sep l a r hbe
        rcases List.mem_cons.mp h with h1 | h2
        · subst h1
          rw [hl]
          exact List.mem_append.mpr (Or.inl hx)
        · have hxr := ih r part h2 x hx
          rw [hl]
          exact List.mem_append.mpr (Or.inr (List.mem_cons_of_mem sep hxr))

theorem getD_mem_or : ∀ (l : List α) (i : Nat) (d : α), l.getD i d ∈ l ∨ l.getD i d = d := by
  intro l
  induction l with
  | nil =>
    intro i d
    right
    cases i <;> rfl
  | cons a l ih =>
    intro i d
    cases i with
    | zero => left; exact List.mem_cons_self a l
    | succ i =>
      rcases ih i d with h | h
      · left; exact List.mem_cons_of_mem a h
      · right; exact h

theorem set_getD_self : ∀ (l : List α) (i : Nat) (d : α), l.set i (l.getD i d) = l := by
  intro l
  induction l with
  | nil => intro i d; rfl
  | cons a l ih =>
    intro i d
    cases i with
    | zero => rfl
    | succ i => exact congrArg (List.cons a) (ih i d)

theorem schemeToRegex_no_star (s : Str) (h : '*' ∉ s) :
    schemeToRegex s = str "^" ++ quoteMeta s ++ str "$" := by
  have hq : '*' ∉ quoteMeta s := quoteMeta_star_not_mem s h
  have hpart : ∀ i, '*' ∉ (splitNElem '/' 4 (quoteMeta s)).getD i [] := by
    intro i hx
    rcases getD_mem_or (splitNElem '/' 4 (quoteMeta s)) i [] with hm | he
    · exact hq (mem_splitNElem '/' 4 (quoteMeta s) _ hm '*' hx)
    · rw [he] at hx; simp at hx
  have h2 : (splitNElem '/' 4 (quoteMeta s)).set 2
      (replaceAllSub (str "\\*") (str "[^/]*") ((splitNElem '/' 4 (quoteMeta s)).getD 2 []))
      = splitNElem '/' 4 (quoteMeta s) := by
    rw [replaceAllSub_star_id _ _ (hpart 2), set_getD_self]
  have h3 : (splitNElem '/' 4 (quoteMeta s)).set 3
      (replaceAllSub (str "\\*") (str ".*") ((splitNElem '/' 4 (quoteMeta s)).getD 3 []))
      = splitNElem '/' 4 (quoteMeta s) := by
    rw [replaceAllSub_star_id _ _ (hpart 3), set_getD_self]
  have hj : joinSep '/' (splitNElem '/' 4 (quoteMeta s)) = quoteMeta s :=
    joinSep_splitNElem '/' 3 (quoteMeta s)
  simp only [schemeToRegex, h2, h3]
  by_cases hc : 3 ≤ (splitNElem '/' 4 (quoteMeta s)).length
  · rw [if_pos hc]
    by_cases hc4 : 4 ≤ (splitNElem '/' 4 (quoteMeta s)).length
    · rw [if_pos hc4, hj]
    · rw [if_neg hc4, hj]
  · rw [if_neg hc, replaceAllSub_star_id _ _ hq]

theorem matchPure_no_star (s t : Str) (h : '*' ∉ s) :
    matchPure t s = true ↔ t = s := by
  rw [matchPure]
  rw [schemeToRegex_no_star s h, reCompile_anchored, parseBody_quoteMeta]
  exact tokMatch_lits_iff s t

/-! ### Lemmas: the resolver loops compute the first-match specification -/

theorem schemesMatchFirst_fst (t : Str) : ∀ (ss : List Str) (cache : RegexCache), CacheWF cache →
    (schemesMatchFirst cache t ss).1 = ss.any (fun s => matchPure t s) := by
  intro ss
  induction ss with
  | nil => intro cache _; rfl
  | cons s rest ih =>
    intro cache hwf
    simp only [schemesMatchFirst, List.any_cons]
    by_cases hb : (matchScheme cache t s).1 = true
    · rw [if_pos hb]
      rw [matchScheme_fst cache t s hwf] at hb
      simp [hb]
    · rw [if_neg hb]
      have hb0 : (matchScheme cache t s).1 = false := by
        cases h2 : (matchScheme cache t s).1
        · rfl
        · exact absurd h2 hb
      have hp : matchPure t s = false := by
        rw [← matchScheme_fst cache t s hwf]; exact hb0
      rw [ih _ (matchScheme_wf cache t s hwf), hp]
      simp

theorem schemesMatchFirst_wf (t : Str) : ∀ (ss : List Str) (cache : RegexCache), CacheWF cache →
    CacheWF (schemesMatchFirst cache t ss).2 := by
  intro ss
  induction ss with
  | nil => intro cache hwf; exact hwf
  | cons s rest ih =>
    intro cache hwf
    simp only [schemesMatchFirst]
    by_cases hb : (matchScheme cache t s).1 = true
    · rw [if_pos hb]
      exact matchScheme_wf cache t s hwf
    · rw [if_neg hb]
      exact ih _ (matchScheme_wf cache t s hwf)

theorem endpointsFind_fst (t : Str) : ∀ (eps : List OEmbedEndpoint) (cache : RegexCache),
    CacheWF cache →
    (endpointsFind cache t eps).1 = eps.findSome? (fun e =>
      if e.Schemes.any (fun s => matchPure t s) then some e.URL else none) := by
  intro eps
  induction eps with
  | nil => intro cache _; rfl
  | cons e rest ih =>
    intro cache hwf
    rw [List.findSome?_cons]
    simp only [endpointsFind]
    by_cases hb : (schemesMatchFirst cache t e.Schemes).1 = true
    · rw [if_pos hb]
      rw [schemesMatchFirst_fst t e.Schemes cache hwf] at hb
      rw [hb]
      rfl
    · rw [if_neg hb]
      have hb0 : (schemesMatchFirst cache t e.Schemes).1 = false := by
        cases h2 : (schemesMatchFirst cache t e.Schemes).1
        · rfl
        · exact absurd h2 hb
      rw [schemesMatchFirst_fst t e.Schemes cache hwf] at hb0
      rw [hb0]
      exact ih _ (schemesMatchFirst_wf t e.Schemes cache hwf)

theorem endpointsFind_wf (t : Str) : ∀ (eps : List OEmbedEndpoint) (cache : RegexCache),
    CacheWF cache → CacheWF (endpointsFind cache t eps).2 := by
  intro eps
  induction eps with
  | nil => intro cache hwf; exact hwf
  | cons e rest ih =>
    intro cache hwf
    simp only [endpointsFind]
    by_cases hb : (schemesMatchFirst cache t e.Schemes).1 = true
    · rw [if_pos hb]
      exact schemesMatchFirst_wf t e.Schemes cache hwf
    · rw [if_neg hb]
      exact ih _ (schemesMatchFirst_wf t e.Schemes cache hwf)

theorem providersFind_fst (t : Str) : ∀ (ps : List OEmbedProvider) (cache : RegexCache),
    CacheWF cache →
    (providersFind cache t ps).1 = ps.findSome? (fun p =>
      p.Endpoints.findSome? (fun e =>
        if e.Schemes.any (fun s => matchPure t s) then some e.URL else none)) := by
  intro ps
  induction ps with
  | nil => intro cache _; rfl
  | cons p rest ih =>
    intro cache hwf
    rw [List.findSome?_cons]
    simp only [providersFind]
    cases hm : (endpointsFind cache t p.Endpoints).1 with
    | some u =>
      rw [endpointsFind_fst t p.Endpoints cache hwf] at hm
      rw [hm]
    | none =>
      rw [endpointsFind_fst t p.Endpoints cache hwf] at hm
      rw [hm]
      exact ih _ (endpointsFind_wf t p.Endpoints cache hwf)

theorem findOEmbedEndpoint_fst (provs : List OEmbedProvider) (cache : RegexCache) (t : Str)
    (hwf : CacheWF cache) :
    (findOEmbedEndpoint provs cache t).1 = resolveKnownSpec provs t := by
  simp only [findOEmbedEndpoint, resolveKnownSpec]
  cases hm : (providersFind cache t provs).1 with
  | some u =>
    rw [providersFind_fst t provs cache hwf] at hm
    rw [hm]
    rfl
  | none =>
    rw [providersFind_fst t provs cache hwf] at hm
    rw [hm]
    rfl

/-! ### Lemmas: orchestration -/

theorem extractDiscovery_trace (env : NetEnv) (cache : RegexCache) (t : Str)
    (calls : List NetCall) :
    NetCall.discoveryFetch t ∈ (extractDiscovery env cache t calls).2.2 := by
  simp only [extractDiscovery]
  cases env.discover t with
  | none => simp
  | some d =>
    by_cases hd : d ≠ []
    · cases hf : env.fetch d t <;> simp [hd, hf]
    · simp [hd]

theorem extractDiscovery_result (env : NetEnv) (cache : RegexCache) (t : Str)
    (calls : List NetCall) :
    ((extractDiscovery env cache t calls).1.1.isSome ↔
      (extractDiscovery env cache t calls).1.2 = none) ∧
    ((extractDiscovery env cache t calls).1.2 = none ∨
      (extractDiscovery env cache t calls).1.2 = some (notFoundMsg t)) := by
  simp only [extractDiscovery]
  cases env.discover t with
  | none => simp
  | some d =>
    by_cases hd : d ≠ []
    · cases hf : env.fetch d t <;> simp [hd, hf]
    · simp [hd]

theorem ExtractOEmbed_hit (env : NetEnv) (provs : List OEmbedProvider) (cache : RegexCache)
    (u : Str) (o : OEmbed)
    (he : (findOEmbedEndpoint provs cache (normalizeURL u)).1 ≠ [])
    (hf : env.fetch (findOEmbedEndpoint provs cache (normalizeURL u)).1 (normalizeURL u)
      = some o) :
    ExtractOEmbed env provs cache u
      = ((some o, none), (findOEmbedEndpoint provs cache (normalizeURL u)).2,
         [NetCall.oembedFetch (findOEmbedEndpoint provs cache (normalizeURL u)).1
            (normalizeURL u)]) := by
  simp only [ExtractOEmbed, if_pos he, hf]

theorem ExtractOEmbed_hit_fail (env : NetEnv) (provs : List OEmbedProvider) (cache : RegexCache)
    (u : Str)
    (he : (findOEmbedEndpoint provs cache (normalizeURL u)).1 ≠ [])
    (hf : env.fetch (findOEmbedEndpoint provs cache (normalizeURL u)).1 (normalizeURL u)
      = none) :
    ExtractOEmbed env provs cache u
      = extractDiscovery env (findOEmbedEndpoint provs cache (normalizeURL u)).2 (normalizeURL u)
          [NetCall.oembedFetch (findOEmbedEndpoint provs cache (normalizeURL u)).1
             (normalizeURL u)] := by
  simp only [ExtractOEmbed, if_pos he, hf]

theorem ExtractOEmbed_miss (env : NetEnv) (provs : List OEmbedProvider) (cache : RegexCache)
    (u : Str)
    (he : ¬((findOEmbedEndpoint provs cache (normalizeURL u)).1 ≠ [])) :
    ExtractOEmbed env provs cache u
      = extractDiscovery env (findOEmbedEndpoint provs cache (normalizeURL u)).2 (normalizeURL u)
          [] := by
  simp only [ExtractOEmbed, if_neg he]

/-! ### Lemmas: byte-level cache behaviour on compile failure -/

theorem matchSchemeB_fail (cache : RegexCacheB) (t scheme : Bytes)
    (hc : reCompileB (schemeToRegexB scheme) = none)
    (hl : cacheLookupB cache scheme = none) :
    matchSchemeB cache t scheme = (false, cache) := by
  simp [matchSchemeB, getCompiledRegexB, hl, hc]

theorem matchSchemeB_snd (cache : RegexCacheB) (t s : Bytes) :
    (matchSchemeB cache t s).2 = cache ∨
    (cacheLookupB cache s = none ∧ ∃ re, reCompileB (schemeToRegexB s) = some re ∧
      (matchSchemeB cache t s).2 = cache ++ [(s, re)]) := by
  cases hl : cacheLookupB cache s with
  | some re => left; simp [matchSchemeB, getCompiledRegexB, hl]
  | none =>
    cases hc : reCompileB (schemeToRegexB s) with
    | none => left; simp [matchSchemeB, getCompiledRegexB, hl, hc]
    | some re =>
      right
      exact ⟨rfl, re, rfl, by simp [matchSchemeB, getCompiledRegexB, hl, hc]⟩

theorem cacheLookupB_append_right (c1 c2 : RegexCacheB) (s : Bytes)
    (h : cacheLookupB c1 s = none) : cacheLookupB (c1 ++ c2) s = cacheLookupB c2 s := by
  induction c1 with
  | nil => rfl
  | cons p rest ih =>
    obtain ⟨k, r⟩ := p
    rw [List.cons_append]
    simp only [cacheLookupB] at h ⊢
    by_cases hk : k = s
    · rw [if_pos hk] at h; exact absurd h (by simp)
    · rw [if_neg hk] at h
      rw [if_neg hk]
      exact ih h

theorem matchSchemeB_lookup_none (cache : RegexCacheB) (t s scheme : Bytes)
    (hcfail : reCompileB (schemeToRegexB scheme) = none)
    (hl : cacheLookupB cache scheme = none) :
    cacheLookupB (matchSchemeB cache t s).2 scheme = none := by
  rcases matchSchemeB_snd cache t s with h | ⟨_, re, hcs, h⟩
  · rw [h]; exact hl
  · rw [h, cacheLookupB_append_right cache _ scheme hl]
    have hne : s ≠ scheme := by
      intro hss
      rw [hss] at hcs
      rw [hcs] at hcfail
      exact absurd hcfail (by simp)
    simp [cacheLookupB, hne]

theorem runMatchCallsB_lookup_none (scheme : Bytes)
    (hcfail : reCompileB (schemeToRegexB scheme) = none) :
    ∀ (calls : List (Bytes × Bytes)) (cache : RegexCacheB),
    cacheLookupB cache scheme = none →
    cacheLookupB (runMatchCallsB cache calls) scheme = none := by
  intro calls
  induction calls with
  | nil => intro cache hl; exact hl
  | cons c rest ih =>
    intro cache hl
    obtain ⟨t, s⟩ := c
    exact ih _ (matchSchemeB_lookup_none cache t s scheme hcfail hl)

/-! ### Lemmas: list stores (for the provider-slice heap model) -/

theorem listGet?_set_self : ∀ (l : List α) (i : Nat) (x : α), i < l.length →
    (l.set i x).get? i = some x := by
  intro l
  induction l with
  | nil => intro i x h; exact absurd h (by simp)
  | cons a l ih =>
    intro i x h
    cases i with
    | zero => rfl
    | succ i =>
      simp only [List.length_cons] at h
      exact ih i x (by omega)

theorem listGet?_set_other : ∀ (l : List α) (i k : Nat) (x : α), i ≠ k →
    (l.set i x).get? k = l.get? k := by
  intro l
  induction l with
  | nil => intro i k x _; rfl
  | cons a l ih =>
    intro i k x hik
    cases i with
    | zero =>
      cases k with
      | zero => exact absurd rfl hik
      | succ k => rfl
    | succ i =>
      cases k with
      | zero => rfl
      | succ k => exact ih i k x (fun h => hik (congrArg Nat.succ h))

theorem listGetD_eq_get? (l : List α) (i : Nat) (d : α) : l.getD i d = (l.get? i).getD d := rfl

theorem listGetD_set_other (l : List α) (i k : Nat) (x d : α) (h : i ≠ k) :
    (l.set i x).getD k d = l.getD k d := by
  rw [listGetD_eq_get?, listGetD_eq_get?, listGet?_set_other l i k x h]

theorem listGetD_append_len : ∀ (l : List α) (x : α) (d : α), (l ++ [x]).getD l.length d = x := by
  intro l
  induction l with
  | nil => intro x d; rfl
  | cons a l ih => intro x d; exact ih x d

theorem listGetD_append_lt : ∀ (l m : List α) (k : Nat) (d : α), k < l.length →
    (l ++ m).getD k d = l.getD k d := by
  intro l
  induction l with
  | nil => intro m k d h; exact absurd h (by simp)
  | cons a l ih =>
    intro m k d h
    cases k with
    | zero => rfl
    | succ k =>
      simp only [List.length_cons] at h
      exact ih m k d (by omega)

theorem listGet?_some_of_lt : ∀ (l : List α) (i : Nat), i < l.length → ∃ x, l.get? i = some x := by
  intro l
  induction l with
  | nil => intro i h; exact absurd h (by simp)
  | cons a l ih =>
    intro i h
    cases i with
    | zero => exact ⟨a, rfl⟩
    | succ i =>
      simp only [List.length_cons] at h
      exact ih i (by omega)

theorem listGetD_of_ge : ∀ (l : List α) (i : Nat) (d : α), l.length ≤ i → l.getD i d = d := by
  intro l
  induction l with
  | nil => intro i d _; cases i <;> rfl
  | cons a l ih =>
    intro i d h
    cases i with
    | zero => exact absurd h (by simp)
    | succ i =>
      simp only [List.length_cons] at h
      exact ih i d (by omega)

theorem listGetD_set_self (l : List α) (i : Nat) (x d : α) (h : i < l.length) :
    (l.set i x).getD i d = x := by
  rw [listGetD_eq_get?, listGet?_set_self l i x h]
  rfl

/-! ### Witness inputs -/

/-- A small provider registry for witnesses. -/
def provsW : List OEmbedProvider :=
  [⟨str "YouTube", str "https://www.youtube.com",
    [⟨[str "https://*.youtube.com/watch*", str "https://youtu.be/*"],
      str "https://www.youtube.com/oembed", true⟩]⟩,
   ⟨str "Vimeo", str "https://vimeo.com",
    [⟨[str "https://vimeo.com/*"], str "https://vimeo.com/api/oembed.json", true⟩]⟩]

/-- A concrete oEmbed record for witnesses. -/
def oembedW : OEmbed :=
  ⟨str "video", str "1.0", [], [], [], [], [], 0, [], 0, 0, [], 0, 0, []⟩

/-- A network oracle whose oEmbed fetches always succeed. -/
def envHitW : NetEnv := ⟨fun _ _ => some oembedW, fun _ => none⟩

/-- A network oracle on which everything fails. -/
def envMissW : NetEnv := ⟨fun _ _ => none, fun _ => none⟩

/-- A one-provider heap for the registry-copy witness. -/
def heapW : Heap :=
  ⟨[[⟨str "P", str "https://p.example", 0⟩]],
   [[⟨[str "https://p.example/*"], str "https://p.example/oembed", false⟩]]⟩

/-! ### The claims -/

/-- C1, counterexample: the claim says a candidate whose host-level
wildcard corresponds to the empty string is rejected; in the code the
host wildcard compiles to a zero-or-more class, so the candidate
https://.youtube.com/watch matches https://*.youtube.com/watch* and
matchScheme returns true, not false. -/
theorem claim_c1_counterexample :
    (matchScheme [] (str "https://.youtube.com/watch") (str "https://*.youtube.com/watch*")).1
      = true := by decide

/-- C1 (amended): the host-segment wildcard is compiled to the
slash-excluding class repeated ZERO or more times: the canonical pattern
compiles to literals around a hostStar and a pathStar token; a hostStar
token matches exactly the splits whose consumed prefix is slash-free
(including the empty prefix); and the pattern accepts every candidate
https://W.youtube.com/watch with W slash-free, the empty W included. -/
theorem claim_c1 :
    reCompile (schemeToRegex (str "https://*.youtube.com/watch*"))
      = some ((str "https://").map RTok.lit
          ++ RTok.hostStar :: ((str ".youtube.com/watch").map RTok.lit ++ [RTok.pathStar])) ∧
    (∀ (ts : List RTok) (s : Str),
      tokMatch (RTok.hostStar :: ts) s = true ↔
        ∃ w t, s = w ++ t ∧ '/' ∉ w ∧ tokMatch ts t = true) ∧
    (∀ (w : Str) (cache : RegexCache), CacheWF cache → '/' ∉ w →
      (matchScheme cache (str "https://" ++ (w ++ str ".youtube.com/watch"))
        (str "https://*.youtube.com/watch*")).1 = true) := by
  refine ⟨by decide, hostStar_iff, ?_⟩
  intro w cache hwf hw
  rw [matchScheme_fst _ _ _ hwf]
  have hre : reCompile (schemeToRegex (str "https://*.youtube.com/watch*"))
      = some ((str "https://").map RTok.lit
          ++ RTok.hostStar :: ((str ".youtube.com/watch").map RTok.lit ++ [RTok.pathStar])) := by
    decide
  simp only [matchPure, hre]
  rw [tokMatch_lit_peel]
  exact hostStar_absorb _ w _ hw (by decide)

/-- C1 witness: the amended claim at the empty subdomain. -/
theorem claim_c1_witness :
    (matchScheme [] (str "https://" ++ ([] ++ str ".youtube.com/watch"))
      (str "https://*.youtube.com/watch*")).1 = true :=
  claim_c1.2.2 [] [] cacheWF_nil (by simp)

/-- C2: the three end-to-end scenario candidates give true, true, false
against https://*.youtube.com/watch*; https://evil.com/youtube.com/x
does not match https://*.youtube.com/x; and whatever a host-level
wildcard consumes is slash-free: any accepted candidate splits so the
wildcard's part contains no slash. -/
theorem claim_c2 (cache : RegexCache) (hwf : CacheWF cache) :
    (matchScheme cache (str "https://www.youtube.com/watch?v=abc123")
      (str "https://*.youtube.com/watch*")).1 = true ∧
    (matchScheme cache (str "https://m.youtube.com/watch?v=xyz")
      (str "https://*.youtube.com/watch*")).1 = true ∧
    (matchScheme cache (str "https://youtube.evil.com/watch")
      (str "https://*.youtube.com/watch*")).1 = false ∧
    (matchScheme cache (str "https://evil.com/youtube.com/x")
      (str "https://*.youtube.com/x")).1 = false ∧
    (∀ (ts : List RTok) (s : Str), tokMatch (RTok.hostStar :: ts) s = true →
      ∃ w t, s = w ++ t ∧ '/' ∉ w ∧ tokMatch ts t = true) := by
  refine ⟨?_, ?_, ?_, ?_, fun ts s h => (hostStar_iff ts s).mp h⟩
  all_goals rw [matchScheme_fst _ _ _ hwf]
  all_goals decide

/-- C2 witness: the scenario at the empty cache. -/
theorem claim_c2_witness :
    (matchScheme [] (str "https://www.youtube.com/watch?v=abc123")
      (str "https://*.youtube.com/watch*")).1 = true :=
  (claim_c2 [] cacheWF_nil).1

/-- C3: whenever the known-provider stage does not succeed (no endpoint,
or its fetch fails), the trace contains the discovery fetch of the
normalized target; the record is present exactly when the error is
absent; and the only error ever returned is the not-found error naming
the normalized target URL. -/
theorem claim_c3 (env : NetEnv) (provs : List OEmbedProvider) (cache : RegexCache) (u : Str) :
    (((findOEmbedEndpoint provs cache (normalizeURL u)).1 = [] ∨
       env.fetch (findOEmbedEndpoint provs cache (normalizeURL u)).1 (normalizeURL u) = none) →
      NetCall.discoveryFetch (normalizeURL u) ∈ (ExtractOEmbed env provs cache u).2.2) ∧
    ((ExtractOEmbed env provs cache u).1.1.isSome ↔ (ExtractOEmbed env provs cache u).1.2 = none) ∧
    ((ExtractOEmbed env provs cache u).1.2 = none ∨
      (ExtractOEmbed env provs cache u).1.2 = some (notFoundMsg (normalizeURL u))) := by
  by_cases he : (findOEmbedEndpoint provs cache (normalizeURL u)).1 ≠ []
  · cases hf : env.fetch (findOEmbedEndpoint provs cache (normalizeURL u)).1 (normalizeURL u) with
    | some o =>
      rw [ExtractOEmbed_hit env provs cache u o he hf]
      refine ⟨?_, by simp, by simp⟩
      intro hor
      rcases hor with h1 | h2
      · exact absurd h1 he
      · exact absurd h2 (by simp)
    | none =>
      rw [ExtractOEmbed_hit_fail env provs cache u he hf]
      exact ⟨fun _ => extractDiscovery_trace env _ _ _,
        (extractDiscovery_result env _ _ _).1, (extractDiscovery_result env _ _ _).2⟩
  · rw [ExtractOEmbed_miss env provs cache u he]
    exact ⟨fun _ => extractDiscovery_trace env _ _ _,
      (extractDiscovery_result env _ _ _).1, (extractDiscovery_result env _ _ _).2⟩

/-- C3 witness: with no providers and a failing network, discovery is
attempted and the not-found error names the normalized URL. -/
theorem claim_c3_witness :
    NetCall.discoveryFetch (normalizeURL (str "x"))
        ∈ (ExtractOEmbed envMissW [] [] (str "x")).2.2 ∧
    ((ExtractOEmbed envMissW [] [] (str "x")).1.1.isSome ↔
      (ExtractOEmbed envMissW [] [] (str "x")).1.2 = none) ∧
    ((ExtractOEmbed envMissW [] [] (str "x")).1.2 = none ∨
      (ExtractOEmbed envMissW [] [] (str "x")).1.2
        = some (notFoundMsg (normalizeURL (str "x")))) := by
  have h := claim_c3 envMissW [] [] (str "x")
  exact ⟨h.1 (Or.inl rfl), h.2.1, h.2.2⟩

/-- C4: when the regex derived from a scheme fails to compile (in the
byte-level model: the scheme contains invalid UTF-8), matchScheme
returns false, stores nothing in the cache, and after any sequence of
further matchScheme calls the scheme is still uncached and still
returns false. -/
theorem claim_c4 (cache : RegexCacheB) (scheme : Bytes) (calls : List (Bytes × Bytes))
    (t t' : Bytes)
    (hc : reCompileB (schemeToRegexB scheme) = none)
    (hl : cacheLookupB cache scheme = none) :
    (matchSchemeB cache t scheme).1 = false ∧
    (matchSchemeB cache t scheme).2 = cache ∧
    cacheLookupB (runMatchCallsB cache calls) scheme = none ∧
    (matchSchemeB (runMatchCallsB cache calls) t' scheme).1 = false := by
  have h1 := matchSchemeB_fail cache t scheme hc hl
  have h3 := runMatchCallsB_lookup_none scheme hc calls cache hl
  have h4 := matchSchemeB_fail (runMatchCallsB cache calls) t' scheme hc h3
  exact ⟨by rw [h1], by rw [h1], h3, by rw [h4]⟩

/-- C4 witness: the one-byte scheme 0xFF is invalid UTF-8, its regex
does not compile, and the behaviour persists across an interleaved
successful call. -/
theorem claim_c4_witness :
    reCompileB (schemeToRegexB [255]) = none ∧
    (matchSchemeB [] [] [255]).1 = false ∧
    cacheLookupB (runMatchCallsB []
      [(bstr "https://a.com/x", bstr "https://*.a.com/x*")]) [255] = none ∧
    (matchSchemeB (runMatchCallsB []
      [(bstr "https://a.com/x", bstr "https://*.a.com/x*")]) [] [255]).1 = false := by
  have h := claim_c4 [] [255] [(bstr "https://a.com/x", bstr "https://*.a.com/x*")] [] []
    (by decide) rfl
  exact ⟨by decide, h.1, h.2.2.1, h.2.2.2⟩

/-- C5, counterexample: the claim says matchScheme("", "") is false; the
empty pattern compiles to an anchored empty regex, which accepts the
empty candidate, so matchScheme("", "") is true. -/
theorem claim_c5_counterexample : (matchScheme [] [] []).1 = true := by decide

/-- C5 (amended): a pattern with no wildcard (the empty pattern
included) matches exactly the candidate equal to it character for
character, so the empty pattern matches only the empty candidate — in
particular matchScheme("", "") is true — and an empty candidate can also
match a wildcard pattern such as "*". -/
theorem claim_c5 :
    (∀ (s t : Str) (cache : RegexCache), CacheWF cache → '*' ∉ s →
      ((matchScheme cache t s).1 = true ↔ t = s)) ∧
    (∀ (cache : RegexCache), CacheWF cache → (matchScheme cache [] (str "*")).1 = true) := by
  constructor
  · intro s t cache hwf hns
    rw [matchScheme_fst _ _ _ hwf]
    exact matchPure_no_star s t hns
  · intro cache hwf
    rw [matchScheme_fst _ _ _ hwf]
    decide

/-- C5 witness: exact match of a wildcard-free pattern, and the empty
candidate matching the bare-wildcard pattern. -/
theorem claim_c5_witness :
    (matchScheme [] (str "https://youtube.com/watch") (str "https://youtube.com/watch")).1
      = true ∧
    (matchScheme [] [] (str "*")).1 = true := by
  constructor
  · exact (claim_c5.1 (str "https://youtube.com/watch") (str "https://youtube.com/watch") []
      cacheWF_nil (by decide)).mpr rfl
  · exact claim_c5.2 [] cacheWF_nil

/-- C6: findOEmbedEndpoint returns exactly the first-match
specification: providers in registration order, endpoints in declaration
order, the first endpoint any of whose schemes matches wins, and the
empty string (not an error) when nothing matches. -/
theorem claim_c6 (provs : List OEmbedProvider) (cache : RegexCache) (t : Str)
    (hwf : CacheWF cache) :
    (findOEmbedEndpoint provs cache t).1 = resolveKnownSpec provs t :=
  findOEmbedEndpoint_fst provs cache t hwf

/-- C6 witness: on a two-provider registry the second provider's
endpoint is found for a Vimeo URL. -/
theorem claim_c6_witness :
    (findOEmbedEndpoint provsW [] (str "https://vimeo.com/123")).1
      = resolveKnownSpec provsW (str "https://vimeo.com/123") ∧
    (findOEmbedEndpoint provsW [] (str "https://vimeo.com/123")).1
      = str "https://vimeo.com/api/oembed.json" :=
  ⟨claim_c6 provsW [] (str "https://vimeo.com/123") cacheWF_nil, by decide⟩

/-- C7: a second getCompiledRegex call with the same scheme returns the
same matcher and leaves the cache unchanged (so the two matchers agree
on every candidate), and starting from the empty cache any sequence of
matchScheme calls leaves at most one cache entry per scheme string. -/
theorem claim_c7 :
    (∀ (cache : RegexCache) (s : Str),
      getCompiledRegex (getCompiledRegex cache s).2 s = getCompiledRegex cache s ∧
      (∀ t : Str, evalMatcher (getCompiledRegex (getCompiledRegex cache s).2 s).1 t
          = evalMatcher (getCompiledRegex cache s).1 t)) ∧
    (∀ calls : List (Str × Str), ((runMatchCalls [] calls).map Prod.fst).Nodup) := by
  constructor
  · intro cache s
    constructor
    · exact getCompiledRegex_twice cache s
    · intro t
      rw [getCompiledRegex_twice cache s]
  · intro calls
    exact runMatchCalls_keys_nodup calls [] (by simp)

/-- C8: when a known endpoint resolves for the normalized target and its
oEmbed fetch succeeds, ExtractOEmbed returns that record with no error
and the trace is exactly one oEmbed fetch — no discovery fetch. -/
theorem claim_c8 (env : NetEnv) (provs : List OEmbedProvider) (cache : RegexCache) (u : Str)
    (o : OEmbed)
    (he : (findOEmbedEndpoint provs cache (normalizeURL u)).1 ≠ [])
    (hf : env.fetch (findOEmbedEndpoint provs cache (normalizeURL u)).1 (normalizeURL u)
      = some o) :
    ExtractOEmbed env provs cache u
      = ((some o, none), (findOEmbedEndpoint provs cache (normalizeURL u)).2,
         [NetCall.oembedFetch (findOEmbedEndpoint provs cache (normalizeURL u)).1
            (normalizeURL u)]) :=
  ExtractOEmbed_hit env provs cache u o he hf

/-- C8 witness: a youtu.be URL resolves against the witness registry and
the single fetch returns the record. -/
theorem claim_c8_witness :
    ExtractOEmbed envHitW provsW [] (str "https://youtu.be/abc")
      = ((some oembedW, none),
         (findOEmbedEndpoint provsW [] (normalizeURL (str "https://youtu.be/abc"))).2,
         [NetCall.oembedFetch
            (findOEmbedEndpoint provsW [] (normalizeURL (str "https://youtu.be/abc"))).1
            (normalizeURL (str "https://youtu.be/abc"))]) :=
  claim_c8 envHitW provsW [] (str "https://youtu.be/abc") oembedW (by decide) rfl

/-- C9: the substring-based matchScheme of oembed.go and the regex-based
matchScheme disagree: the candidate https://z.a.com/xy against the
wildcard-free scheme https://a.com/x is accepted by the naive matcher
(both pieces occur as substrings) and rejected by the regex matcher
(anchored exact match). -/
theorem claim_c9 :
    matchSchemeNaive (str "https://z.a.com/xy") (str "https://a.com/x") = true ∧
    (matchScheme [] (str "https://z.a.com/xy") (str "https://a.com/x")).1 = false := by
  constructor
  · decide
  · decide

/-- C10: the copy GetKnownProviders returns is one level deep:
GetSupportedProviders is the same operation; overwriting an element of
the returned slice leaves every registry read unchanged; the returned
slice's cells are the registry's cells (same Endpoints references); and
writing an endpoint URL through a returned cell's Endpoints reference
changes what a later registry read observes. -/
theorem claim_c10 (h : Heap) (k : Nat) (hk : k < h.provArrays.length) :
    GetSupportedProviders h k = GetKnownProviders h k ∧
    (∀ (i : Nat) (c : ProviderCell),
      derefProviders (writeProvCell (GetKnownProviders h k).2 (GetKnownProviders h k).1 i c) k
        = derefProviders (GetKnownProviders h k).2 k) ∧
    ((GetKnownProviders h k).2.provArrays.getD (GetKnownProviders h k).1 []
      = h.provArrays.getD k []) ∧
    (∀ (i j : Nat) (c : ProviderCell) (u : Str),
      ((GetKnownProviders h k).2.provArrays.getD (GetKnownProviders h k).1 []).get? i
        = some c →
      j < ((GetKnownProviders h k).2.endArrays.getD c.EndpointsRef []).length →
      readEndpointURLvia (writeEndpointURL (GetKnownProviders h k).2 c.EndpointsRef j u) k i j
        = some u) := by
  have hne : h.provArrays.length ≠ k := (Nat.ne_of_lt hk).symm
  refine ⟨rfl, ?_, ?_, ?_⟩
  · intro i c
    simp only [GetKnownProviders, derefProviders, writeProvCell]
    rw [listGetD_set_other _ _ _ _ _ hne]
  · simp only [GetKnownProviders]
    exact listGetD_append_len h.provArrays _ []
  · intro i j c u hcell hj
    simp only [GetKnownProviders] at hcell hj ⊢
    rw [listGetD_append_len h.provArrays _ []] at hcell
    have her : c.EndpointsRef < h.endArrays.length := by
      by_contra hge
      rw [listGetD_of_ge _ _ _ (Nat.le_of_not_lt hge)] at hj
      exact absurd hj (by simp)
    obtain ⟨e, hje⟩ := listGet?_some_of_lt (h.endArrays.getD c.EndpointsRef []) j hj
    simp only [writeEndpointURL, hje, readEndpointURLvia]
    rw [listGetD_append_lt _ _ _ _ hk, hcell]
    simp only [listGetD_set_self _ _ _ _ her, listGet?_set_self _ _ _ hj, Option.map_some']

/-- C10 witness: on a one-provider heap, replacing the copied cell does
not change the registry read, and writing the endpoint URL through the
copied cell's reference does. -/
theorem claim_c10_witness :
    derefProviders (writeProvCell (GetKnownProviders heapW 0).2 (GetKnownProviders heapW 0).1 0
        ⟨str "Q", str "https://q.example", 0⟩) 0
      = derefProviders (GetKnownProviders heapW 0).2 0 ∧
    readEndpointURLvia
        (writeEndpointURL (GetKnownProviders heapW 0).2 0 0 (str "https://evil.example")) 0 0 0
      = some (str "https://evil.example") := by
  have h := claim_c10 heapW 0 (by decide)
  refine ⟨h.2.1 0 ⟨str "Q", str "https://q.example", 0⟩, ?_⟩
  exact h.2.2.2 0 0 ⟨str "P", str "https://p.example", 0⟩ (str "https://evil.example")
    (by decide) (by decide)

end Urlmeta
